import Mathlib

/-!
# tess-two JNI bridge (`tessbaseapi.cpp`): lifecycle, cancellation and progress relay

A shallow embedding of `jni/com_googlecode_tesseract_android/tessbaseapi.cpp`.

* Pointers are natural numbers, `0` being `NULL`.
* `int`, `l_int32` and `jint` values are only compared and copied by the callbacks, never
  computed with, so they are integers; the one counter that is incremented (`len` in
  `nativeWordConfidences`) wraps at 32 bits.
* The managed side is a log of the `onProgressValues` calls made through `CallVoidMethod`.
* The recognition engine is an external collaborator: what it does during a recognition
  call is a script of the monitor callbacks it makes. A `nativeStop` issued by another thread
  during the call is interleaved between two callbacks; each callback runs atomically.
* The native heap holds the image buffers only. The address `malloc` returns is chosen by an
  allocator that may look at the whole heap; the results on buffer ownership are for
  allocators whose result is non-null and not in use.
-/

namespace TessBaseAPI

/-! ## Data model -/

/-- The part of `tesseract::TessBaseAPI` the bridge can observe: the image pointer the engine
was last given by `SetImage` (it does not own it), `0` when it holds none. -/
structure Engine where
  image : Nat
  deriving DecidableEq, Repr

/-- The struct `native_data_t` (source lines 28-69). -/
structure native_data_t where
  api : Engine
  data : Nat
  debug : Bool
  lastProgress : Int
  cancel_ocr : Bool
  cachedEnv : Nat
  cachedObject : Nat
  deriving DecidableEq, Repr

/-- One `CallVoidMethod(.., method_onProgressValues, progress, left, right, top, bottom)`
received by the managed side. -/
structure OnProgressValues where
  progress : Int
  left : Int
  right : Int
  top : Int
  bottom : Int
  deriving DecidableEq, Repr

/-- The constructor `native_data_t()` (lines 61-68); the engine starts with no image. -/
def native_data_t.new : native_data_t :=
  { api := { image := 0 }
    data := 0
    debug := false
    lastProgress := 0
    cancel_ocr := false
    cachedEnv := 0
    cachedObject := 0 }

/-- The method `isStateValid` (lines 39-45). -/
def native_data_t.isStateValid (nat : native_data_t) : Bool :=
  if nat.cancel_ocr == false && nat.cachedEnv != 0 && nat.cachedObject != 0 then
    true
  else
    false

/-- The method `initStateVariables` (lines 47-52). -/
def native_data_t.initStateVariables (nat : native_data_t) (env object : Nat) : native_data_t :=
  { nat with cancel_ocr := false, cachedEnv := env, cachedObject := object, lastProgress := 0 }

/-- The method `resetStateVariables` (lines 54-59). -/
def native_data_t.resetStateVariables (nat : native_data_t) : native_data_t :=
  { nat with cancel_ocr := false, cachedEnv := 0, cachedObject := 0, lastProgress := 0 }

/-! ## Monitor callbacks -/

/-- The function `cancelFunc` (lines 74-77): the returned flag and the handle after the call. -/
def cancelFunc (nat : native_data_t) (_words : Int) : Bool × native_data_t :=
  (nat.cancel_ocr, nat)

/-- What one run of `progressJavaCallback` yields: its return value, the handle afterwards and
the calls made into the managed side. -/
structure ProgressResult where
  ret : Bool
  nat : native_data_t
  relayed : List OnProgressValues
  deriving DecidableEq, Repr

/-- The function `progressJavaCallback` (lines 82-94). -/
def progressJavaCallback (nat : native_data_t) (progress left right top bottom : Int) :
    ProgressResult :=
  if nat.isStateValid then
    if progress > nat.lastProgress || left != 0 || right != 0 || top != 0 || bottom != 0 then
      { ret := true
        nat := { nat with lastProgress := progress }
        relayed := [{ progress := progress, left := left, right := right, top := top,
                      bottom := bottom }] }
    else
      { ret := true, nat := nat, relayed := [] }
  else
    { ret := true, nat := nat, relayed := [] }

/-- The function `nativeStop` (lines 274-282). -/
def nativeStop (nat : native_data_t) : native_data_t :=
  { nat.resetStateVariables with cancel_ocr := true }

/-! ## The engine's side of a recognition call -/

/-- A callback the engine makes through the monitor: `monitor.cancel(cancel_this, words)` or
`monitor.progress_callback(progress_this, progress, left, right, top, bottom)`. -/
inductive MonitorCall where
  | cancel (words : Int)
  | progress (progress left right top bottom : Int)
  deriving DecidableEq, Repr

/-- What a run of callbacks leaves behind: the handle, the calls relayed to the managed side
(oldest first) and the answers the cancel predicate gave (oldest first). -/
structure Trace where
  nat : native_data_t
  relayed : List OnProgressValues
  polls : List Bool
  deriving DecidableEq, Repr

/-- The engine makes the given callbacks one after the other on the handle. -/
def runMonitor : native_data_t → List MonitorCall → Trace
  | nat, [] => { nat := nat, relayed := [], polls := [] }
  | nat, MonitorCall.cancel words :: rest =>
      let r := cancelFunc nat words
      let t := runMonitor r.2 rest
      { t with polls := r.1 :: t.polls }
  | nat, MonitorCall.progress p l r tp b :: rest =>
      let res := progressJavaCallback nat p l r tp b
      let t := runMonitor res.nat rest
      { t with relayed := res.relayed ++ t.relayed }

/-- What happens while a recognition call is blocked in the engine: the engine makes a
callback, or another thread calls `nativeStop` on the handle. -/
inductive CallStep where
  | engine (c : MonitorCall)
  | stop
  deriving DecidableEq, Repr

/-- The outcome of the engine's extraction routine: the trace and whether the engine consumed
its whole script (`true`) or returned early on a cancel poll that answered `true`. -/
structure EngineRun where
  trace : Trace
  completed : Bool
  deriving DecidableEq, Repr

/-- The external engine's `GetUTF8Text(&monitor)` / `GetHOCRText(page, &monitor)` as seen from
the bridge: it performs the steps of the script in order; an engine that honours the cancel
predicate returns as soon as a poll answers `true`, one that does not runs the script out. -/
def engineLoop (honours : Bool) : native_data_t → List CallStep → EngineRun
  | nat, [] => { trace := { nat := nat, relayed := [], polls := [] }, completed := true }
  | nat, CallStep.stop :: rest => engineLoop honours (nativeStop nat) rest
  | nat, CallStep.engine (MonitorCall.cancel words) :: rest =>
      let r := cancelFunc nat words
      if r.1 && honours then
        { trace := { nat := r.2, relayed := [], polls := [r.1] }, completed := false }
      else
        let e := engineLoop honours r.2 rest
        { e with trace := { e.trace with polls := r.1 :: e.trace.polls } }
  | nat, CallStep.engine (MonitorCall.progress p l r tp b) :: rest =>
      let res := progressJavaCallback nat p l r tp b
      let e := engineLoop honours res.nat rest
      { e with trace := { e.trace with relayed := res.relayed ++ e.trace.relayed } }

/-- The function `nativeGetUTF8Text` (lines 252-272). `env` is the JNI environment, `thiz` the
address of the parameter `thiz`; the text the engine returns is copied to a managed string and
freed, which leaves the handle untouched, so it is not part of the result. -/
def nativeGetUTF8Text (nat : native_data_t) (env thiz : Nat) (honours : Bool)
    (script : List CallStep) : EngineRun :=
  let nat1 := nat.initStateVariables env thiz
  let e := engineLoop honours nat1 script
  { e with trace := { e.trace with nat := e.trace.nat.resetStateVariables } }

/-- The function `nativeGetHOCRText` (lines 402-422); `page` is handed to the engine only. -/
def nativeGetHOCRText (nat : native_data_t) (env thiz : Nat) (_page : Int) (honours : Bool)
    (script : List CallStep) : EngineRun :=
  let nat1 := nat.initStateVariables env thiz
  let e := engineLoop honours nat1 script
  { e with trace := { e.trace with nat := e.trace.nat.resetStateVariables } }

/-! ## Native heap of image buffers -/

deriving instance DecidableEq for Except

/-- What can go wrong in native code. -/
inductive Fault where
  | invalidFree (p : Nat)
  | wildWrite (p : Nat)
  | outOfBounds
  | negativeArraySize
  deriving DecidableEq, Repr

/-- An action on the native heap. -/
inductive MemEvent where
  | alloc (p : Nat)
  | free (p : Nat)
  deriving DecidableEq, Repr

/-- The native heap as far as image buffers go: the live buffers (address and bytes, newest
first) and the history of allocations and releases (oldest first). -/
structure Heap where
  blocks : List (Nat × List Nat)
  log : List MemEvent
  deriving DecidableEq, Repr

/-- The addresses of the live buffers. -/
def Heap.live (h : Heap) : List Nat :=
  h.blocks.map Prod.fst

/-- A heap with no image buffer and no history. -/
def Heap.empty : Heap :=
  { blocks := [], log := [] }

/-- The allocator's choice of address, given the heap (history included) and the size asked
for. -/
abbrev Allocator := Heap → Nat → Nat

/-- An allocation that succeeds returns a non-null address that is not in use. -/
def Allocator.Sound (al : Allocator) : Prop :=
  ∀ h size, al h size ≠ 0 ∧ al h size ∉ h.live

/-- An allocator that never reuses an address: one past the largest live address. -/
def bumpAllocator : Allocator :=
  fun h _ => h.live.foldr max 0 + 1

/-- The call `malloc(size)`: the address returned and the heap afterwards; a null result
allocates nothing. -/
def malloc (al : Allocator) (h : Heap) (size : Nat) : Nat × Heap :=
  let p := al h size
  if p = 0 then
    (0, h)
  else
    (p, { blocks := (p, List.replicate size 0) :: h.blocks, log := h.log ++ [MemEvent.alloc p] })

/-- The call `free(p)` on a non-null pointer: releasing an address that is not live is a
fault. -/
def free (h : Heap) (p : Nat) : Except Fault Heap :=
  if p ∈ h.live then
    .ok { blocks := h.blocks.filter (fun b => b.1 != p), log := h.log ++ [MemEvent.free p] }
  else
    .error (Fault.invalidFree p)

/-- The write `p[i] = v`: a fault unless `p` is live and `i` inside the buffer. -/
def Heap.store (h : Heap) (p i v : Nat) : Except Fault Heap :=
  match h.blocks.find? (fun b => b.1 == p) with
  | none => .error (Fault.wildWrite p)
  | some b =>
      if i < b.2.length then
        .ok { h with blocks := h.blocks.map (fun c => if c.1 == p then (c.1, c.2.set i v) else c) }
      else
        .error Fault.outOfBounds

/-- The cast `(unsigned char) x` of a `jbyte`. -/
def toUChar (x : Int) : Nat :=
  (x % 256).toNat

/-- The copy loop `for (int i = 0; i < count; i++) imagedata[i] = (unsigned char) data_array[i]`
(lines 223-225). -/
def copyLoop (h : Heap) (imagedata : Nat) (data_array : List Int) (count : Nat) :
    Except Fault Heap :=
  (List.range count).foldlM
    (fun (g : Heap) (i : Nat) => g.store imagedata i (toUChar (data_array.getD i 0))) h

/-- The engine's `SetImage(imagedata, width, height, bpp, bpl)`: it is pointed at the buffer
and does not take ownership. -/
def Engine.SetImage (_api : Engine) (imagedata : Nat) (_width _height _bpp _bpl : Int) : Engine :=
  { image := imagedata }

/-- The engine's `Clear()` followed by `ClearAdaptiveClassifier()`: it lets go of its image. -/
def Engine.Clear (_api : Engine) : Engine :=
  { image := 0 }

/-- The engine's `End()`: it lets go of its image. -/
def Engine.End (_api : Engine) : Engine :=
  { image := 0 }

/-- A handle together with the native heap. -/
structure World where
  nat : native_data_t
  heap : Heap
  deriving DecidableEq, Repr

/-- The function `nativeConstruct` (lines 121-131): a fresh handle; no image buffer exists. -/
def nativeConstruct : World :=
  { nat := native_data_t.new, heap := Heap.empty }

/-- The function `nativeSetImageBytes` (lines 209-238), statement by statement: the worlds
after `malloc` (line 219), after the copy loop (223-225), after `SetImage` (230), after the
release of the previous buffer (235-236) and after `nat->data = imagedata` (237). -/
def nativeSetImageBytesSteps (al : Allocator) (w : World) (data : List Int)
    (width height bpp bpl : Int) : Except Fault (List World) := do
  let count := data.length
  let m := malloc al w.heap count
  let imagedata := m.1
  let w1 : World := { w with heap := m.2 }
  let h2 ← copyLoop w1.heap imagedata data count
  let w2 : World := { w1 with heap := h2 }
  let w3 : World :=
    { w2 with nat := { w2.nat with api := w2.nat.api.SetImage imagedata width height bpp bpl } }
  let h4 ← if w3.nat.data != 0 then free w3.heap w3.nat.data else pure w3.heap
  let w4 : World := { w3 with heap := h4 }
  let w5 : World := { w4 with nat := { w4.nat with data := imagedata } }
  pure [w1, w2, w3, w4, w5]

/-- The function `nativeSetImageBytes` (lines 209-238): the world it leaves. -/
def nativeSetImageBytes (al : Allocator) (w : World) (data : List Int)
    (width height bpp bpl : Int) : Except Fault World := do
  let steps ← nativeSetImageBytesSteps al w data width height bpp bpl
  pure (steps.getLastD w)

/-- The function `nativeClear` (lines 336-352). -/
def nativeClear (w : World) : Except Fault World := do
  let nat1 : native_data_t := { w.nat with api := w.nat.api.Clear }
  let h ← if nat1.data != 0 then free w.heap nat1.data else pure w.heap
  pure { nat := { nat1 with data := 0 }, heap := h }

/-- The function `nativeEnd` (lines 354-367). -/
def nativeEnd (w : World) : Except Fault World := do
  let nat1 : native_data_t := { w.nat with api := w.nat.api.End }
  let h ← if nat1.data != 0 then free w.heap nat1.data else pure w.heap
  pure { nat := { nat1 with data := 0 }, heap := h }

/-- The function `nativeFinalize` (lines 133-147): the image buffer is released, then the
handle is deleted, so only the heap remains. -/
def nativeFinalize (w : World) : Except Fault Heap := do
  let h ← if w.nat.data != 0 then free w.heap w.nat.data else pure w.heap
  pure h

/-- The operations a caller may apply to a constructed handle between construction and
finalization that touch the image buffer. -/
inductive Op where
  | nativeSetImageBytes (data : List Int) (width height bpp bpl : Int)
  | nativeClear
  | nativeEnd
  deriving DecidableEq, Repr

/-- One operation applied to the world. -/
def applyOp (al : Allocator) (w : World) : Op → Except Fault World
  | Op.nativeSetImageBytes data width height bpp bpl =>
      nativeSetImageBytes al w data width height bpp bpl
  | Op.nativeClear => nativeClear w
  | Op.nativeEnd => nativeEnd w

/-- A sequence of operations applied in order; the first fault ends the run. -/
def runOps (al : Allocator) : World → List Op → Except Fault World
  | w, [] => .ok w
  | w, op :: rest =>
      match applyOp al w op with
      | .ok w1 => runOps al w1 rest
      | .error f => .error f

/-- Replays a heap history on a set of live addresses: an allocation must return an address
that is not live, a release must name a live address. The result is the live set at the end,
or `none` when the history breaks one of the two rules. -/
def replay : List Nat → List MemEvent → Option (List Nat)
  | live, [] => some live
  | live, MemEvent.alloc p :: rest => if p ∈ live then none else replay (p :: live) rest
  | live, MemEvent.free p :: rest =>
      if p ∈ live then replay (live.filter (fun q => q != p)) rest else none

/-! ## Word confidences -/

/-- A 32-bit two's-complement `int` holding the integer `x`. -/
def wrapInt32 (x : Int) : Int :=
  (x + 2 ^ 31) % 2 ^ 32 - 2 ^ 31

/-- The scan `for (len = 0, trav = confs; *trav != -1; trav++, len++);` (lines 304-305) from
the current `len` over the cells at and after `trav`; `none` when the scan runs off the end of
the array without meeting the sentinel. -/
def scanSentinel : Int → List Int → Option Int
  | _, [] => none
  | len, x :: rest => if x != -1 then scanSentinel (wrapInt32 (len + 1)) rest else some len

/-- The function `nativeWordConfidences` (lines 292-316). `confs` is what
`AllWordConfidences()` returned: `none` for `NULL`, otherwise the cells of the array. The
result is `none` for a null return, otherwise the managed array. -/
def nativeWordConfidences (confs : Option (List Int)) : Except Fault (Option (List Int)) :=
  match confs with
  | none => .ok none
  | some cells =>
      match scanSentinel 0 cells with
      | none => .error Fault.outOfBounds
      | some len =>
          if len < 0 then .error Fault.negativeArraySize
          else .ok (some (cells.take len.toNat))

/-! ## The specification's wording, for comparison -/

/-- The zero-rectangle progress event with the given percent. -/
def percentOnly (p : Int) : MonitorCall :=
  MonitorCall.progress p 0 0 0 0

/-- The percents the specification says are relayed: those strictly greater than 0 and
strictly greater than every earlier percent of the sequence (`earlier` holds the percents
already seen). -/
def relayedPerSpec (earlier : List Int) : List Int → List Int
  | [] => []
  | p :: rest =>
      if 0 < p ∧ ∀ q ∈ earlier, q < p then p :: relayedPerSpec (earlier ++ [p]) rest
      else relayedPerSpec (earlier ++ [p]) rest

/-- The managed-side call made for a percent-only event. -/
def percentCall (p : Int) : OnProgressValues :=
  { progress := p, left := 0, right := 0, top := 0, bottom := 0 }

/-- Whether a heap action is an allocation. -/
def MemEvent.isAlloc : MemEvent → Bool
  | MemEvent.alloc _ => true
  | MemEvent.free _ => false

/-- Whether a heap action is a release. -/
def MemEvent.isFree : MemEvent → Bool
  | MemEvent.alloc _ => false
  | MemEvent.free _ => true

/-- Whether an operation is a `nativeSetImageBytes`. -/
def Op.isSetImage : Op → Bool
  | Op.nativeSetImageBytes _ _ _ _ _ => true
  | Op.nativeClear => false
  | Op.nativeEnd => false

/-- The engine reporting the progress event with the given five values. -/
def progressStep (e : OnProgressValues) : CallStep :=
  CallStep.engine (MonitorCall.progress e.progress e.left e.right e.top e.bottom)

/-- A script of a recognition call during which a stop arrives: the engine makes the callbacks
`pre`, another thread calls `nativeStop`, the engine reports the progress events `mid`, then
polls the cancel predicate with `words`, and would go on with `rest`. -/
def stopDuringCall (pre : List MonitorCall) (mid : List OnProgressValues) (words : Int)
    (rest : List CallStep) : List CallStep :=
  pre.map CallStep.engine ++
    CallStep.stop :: (mid.map progressStep ++ CallStep.engine (MonitorCall.cancel words) :: rest)

/-- The handle and the heap agree: the live image buffers are exactly the one `nat->data`
points to, if any; the history replays to the live set; and for every address the allocations
outnumber the releases by one when the address is live and equal them when it is not. -/
def World.Consistent (w : World) : Prop :=
  w.heap.live = (if w.nat.data ≠ 0 then [w.nat.data] else []) ∧
  replay [] w.heap.log = some w.heap.live ∧
  ∀ q, List.count (MemEvent.alloc q) w.heap.log
        = List.count (MemEvent.free q) w.heap.log + List.count q w.heap.live

/-! ## Sanity checks on concrete inputs -/

example : (runMonitor (native_data_t.new.initStateVariables 7 9)
    [percentOnly 10, percentOnly 5, percentOnly 20]).relayed
    = [⟨10, 0, 0, 0, 0⟩, ⟨20, 0, 0, 0, 0⟩] := by decide

example : nativeWordConfidences (some [90, 85, -1, 70, -1]) = .ok (some [90, 85]) := by decide

example : nativeWordConfidences (some [90, 85]) = .error Fault.outOfBounds := by decide

example : (runOps bumpAllocator nativeConstruct
    [Op.nativeSetImageBytes [1, -1] 2 1 8 2, Op.nativeSetImageBytes [3] 1 1 8 1]).map
      (fun w => (w.nat.data, w.heap)) =
    .ok (2, { blocks := [(2, [3])],
              log := [MemEvent.alloc 1, MemEvent.alloc 2, MemEvent.free 1] }) := by decide

example : relayedPerSpec [] [10, 5, 20] = [10, 20] := by decide

/-! ## Lemmas on the callbacks -/

theorem isStateValid_iff (nat : native_data_t) :
    nat.isStateValid = true ↔
      nat.cancel_ocr = false ∧ nat.cachedEnv ≠ 0 ∧ nat.cachedObject ≠ 0 := by
  simp [native_data_t.isStateValid, and_assoc]

theorem progress_dropped_of_cancelled (nat : native_data_t) (h : nat.cancel_ocr = true)
    (p l r t b : Int) :
    progressJavaCallback nat p l r t b = { ret := true, nat := nat, relayed := [] } := by
  simp [progressJavaCallback, native_data_t.isStateValid, h]

theorem runMonitor_of_cancelled (calls : List MonitorCall) (nat : native_data_t)
    (h : nat.cancel_ocr = true) :
    (runMonitor nat calls).nat = nat ∧ (runMonitor nat calls).relayed = [] ∧
      ∀ b ∈ (runMonitor nat calls).polls, b = true := by
  induction calls with
  | nil => simp [runMonitor]
  | cons c rest ih =>
    cases c with
    | cancel words =>
      simp only [runMonitor, cancelFunc]
      refine ⟨ih.1, ih.2.1, ?_⟩
      intro b hb
      rcases List.mem_cons.mp hb with hb | hb
      · rw [hb, h]
      · exact ih.2.2 b hb
    | progress p l r t b =>
      simp only [runMonitor, progress_dropped_of_cancelled nat h, List.nil_append]
      exact ih

theorem nativeStop_cancel_ocr (nat : native_data_t) : (nativeStop nat).cancel_ocr = true := rfl

/-! ## Stop, cancellation and progress relay -/

/-- C2: once `nativeStop` has been applied, every progress event handed to
`progressJavaCallback` is dropped, whatever its percent and rectangle: nothing is relayed and
the handle is left as the stop left it. This holds at any point of any finite sequence of
progress events and cancel polls that follows the stop, and the whole sequence relays nothing
and leaves the handle unchanged. -/
theorem progress_dropped_after_stop (nat : native_data_t) :
    (∀ (pre : List MonitorCall) (p l r t b : Int),
        (runMonitor (nativeStop nat) pre).nat = nativeStop nat ∧
        progressJavaCallback (runMonitor (nativeStop nat) pre).nat p l r t b
          = { ret := true, nat := nativeStop nat, relayed := [] }) ∧
    (∀ calls : List MonitorCall,
        (runMonitor (nativeStop nat) calls).relayed = [] ∧
        (runMonitor (nativeStop nat) calls).nat = nativeStop nat) := by
  have hc := nativeStop_cancel_ocr nat
  refine ⟨fun pre p l r t b => ?_, fun calls => ?_⟩
  · have h := runMonitor_of_cancelled pre (nativeStop nat) hc
    refine ⟨h.1, ?_⟩
    rw [h.1]
    exact progress_dropped_of_cancelled _ hc p l r t b
  · have h := runMonitor_of_cancelled calls (nativeStop nat) hc
    exact ⟨h.2.1, h.1⟩

/-- C4: on a handle that satisfies the validity predicate (cancel not requested, cached
environment and cached object present), whatever `lastProgress` is, a progress event with at
least one non-zero rectangle coordinate is relayed to the managed side with exactly the five
values received, and `lastProgress` becomes the event's percent. -/
theorem rectangle_event_relayed (nat : native_data_t) (p l r t b : Int)
    (hcancel : nat.cancel_ocr = false) (henv : nat.cachedEnv ≠ 0) (hobj : nat.cachedObject ≠ 0)
    (hrect : l ≠ 0 ∨ r ≠ 0 ∨ t ≠ 0 ∨ b ≠ 0) :
    progressJavaCallback nat p l r t b =
      { ret := true
        nat := { nat with lastProgress := p }
        relayed := [{ progress := p, left := l, right := r, top := t, bottom := b }] } := by
  have hv : nat.isStateValid = true := (isStateValid_iff nat).mpr ⟨hcancel, henv, hobj⟩
  have hcond : (decide (p > nat.lastProgress) || l != 0 || r != 0 || t != 0 || b != 0) = true := by
    rcases hrect with h | h | h | h <;> simp [h]
  simp only [progressJavaCallback, hv, hcond, if_true]

/-- C4 at a concrete handle: last reported percent 50, event `(0, 0, 0, 3, 0)`. -/
theorem rectangle_event_relayed_witness :
    (native_data_t.cancel_ocr
        { native_data_t.new with cachedEnv := 7, cachedObject := 9, lastProgress := 50 } = false ∧
      (7 : Nat) ≠ 0 ∧ (9 : Nat) ≠ 0 ∧
      ((0 : Int) ≠ 0 ∨ (0 : Int) ≠ 0 ∨ (3 : Int) ≠ 0 ∨ (0 : Int) ≠ 0)) ∧
    progressJavaCallback
        { native_data_t.new with cachedEnv := 7, cachedObject := 9, lastProgress := 50 }
        0 0 0 3 0 =
      { ret := true
        nat := { native_data_t.new with cachedEnv := 7, cachedObject := 9, lastProgress := 0 }
        relayed := [{ progress := 0, left := 0, right := 0, top := 3, bottom := 0 }] } :=
  ⟨⟨rfl, by decide, by decide, by decide⟩,
    rectangle_event_relayed
      { native_data_t.new with cachedEnv := 7, cachedObject := 9, lastProgress := 50 }
      0 0 0 3 0 rfl (by decide) (by decide) (by decide)⟩

/-- C5: after `nativeStop` the handle has `cancel_ocr = true` and both the cached environment
and the cached object null; from then on `cancelFunc` answers `true` for every word count,
after any finite sequence of progress events and polls, and every poll inside such a sequence
was answered `true`; `cancelFunc` never changes the handle. -/
theorem cancel_true_after_stop (nat : native_data_t) :
    (nativeStop nat).cancel_ocr = true ∧
    (nativeStop nat).cachedEnv = 0 ∧
    (nativeStop nat).cachedObject = 0 ∧
    (∀ (calls : List MonitorCall) (words : Int),
        (cancelFunc (runMonitor (nativeStop nat) calls).nat words).1 = true) ∧
    (∀ calls : List MonitorCall, ∀ b ∈ (runMonitor (nativeStop nat) calls).polls, b = true) ∧
    (∀ (s : native_data_t) (words : Int), (cancelFunc s words).2 = s) := by
  have hc := nativeStop_cancel_ocr nat
  refine ⟨rfl, rfl, rfl, fun calls words => ?_, fun calls => ?_, fun _ _ => rfl⟩
  · have h := runMonitor_of_cancelled calls (nativeStop nat) hc
    simp only [cancelFunc, h.1]
    exact hc
  · exact (runMonitor_of_cancelled calls (nativeStop nat) hc).2.2

/-! ## Percent-only progress events -/

theorem runMonitor_percentOnly (ps : List Int) :
    ∀ (nat : native_data_t) (earlier : List Int),
      nat.isStateValid = true →
      (∀ q ∈ earlier, q ≤ nat.lastProgress) →
      0 ≤ nat.lastProgress →
      (nat.lastProgress = 0 ∨ nat.lastProgress ∈ earlier) →
      (runMonitor nat (ps.map percentOnly)).relayed
        = (relayedPerSpec earlier ps).map percentCall := by
  induction ps with
  | nil => intro nat earlier _ _ _ _; simp [runMonitor, relayedPerSpec]
  | cons p rest ih =>
    intro nat earlier hv hle h0 hmem
    simp only [List.map_cons, percentOnly, runMonitor]
    by_cases hp : p > nat.lastProgress
    · have hspec : 0 < p ∧ ∀ q ∈ earlier, q < p :=
        ⟨lt_of_le_of_lt h0 hp, fun q hq => lt_of_le_of_lt (hle q hq) hp⟩
      have hres : progressJavaCallback nat p 0 0 0 0 =
          { ret := true, nat := { nat with lastProgress := p }, relayed := [percentCall p] } := by
        simp [progressJavaCallback, hv, hp, percentCall]
      have hv2 : ({ nat with lastProgress := p } : native_data_t).isStateValid = true := by
        rw [isStateValid_iff] at hv ⊢
        exact hv
      have hrec := ih { nat with lastProgress := p } (earlier ++ [p]) hv2
        (by
          intro q hq
          rcases List.mem_append.mp hq with hq | hq
          · exact le_of_lt (hspec.2 q hq)
          · simp at hq; simp [hq])
        (le_of_lt hspec.1)
        (Or.inr (by simp))
      rw [hres, relayedPerSpec, if_pos hspec, List.map_cons, ← hrec]
      rfl
    · have hres : progressJavaCallback nat p 0 0 0 0 =
          { ret := true, nat := nat, relayed := [] } := by
        simp [progressJavaCallback, hv, hp]
      have hspec : ¬ (0 < p ∧ ∀ q ∈ earlier, q < p) := by
        rintro ⟨hpos, hall⟩
        rcases hmem with h | h
        · rw [h] at hp; exact hp hpos
        · exact hp (hall _ h)
      have hrec := ih nat (earlier ++ [p]) hv
        (by
          intro q hq
          rcases List.mem_append.mp hq with hq | hq
          · exact hle q hq
          · simp at hq; rw [hq]; exact not_lt.mp hp)
        h0
        (by
          rcases hmem with h | h
          · exact Or.inl h
          · exact Or.inr (List.mem_append.mpr (Or.inl h)))
      rw [hres, relayedPerSpec, if_neg hspec, ← hrec]
      rfl

theorem relayedPerSpec_increasing (ps : List Int) :
    ∀ earlier : List Int,
      List.Pairwise (fun a b => a < b) (relayedPerSpec earlier ps) ∧
      ∀ x ∈ relayedPerSpec earlier ps, ∀ q ∈ earlier, q < x := by
  induction ps with
  | nil => intro earlier; simp [relayedPerSpec]
  | cons p rest ih =>
    intro earlier
    have h := ih (earlier ++ [p])
    by_cases hspec : 0 < p ∧ ∀ q ∈ earlier, q < p
    · rw [relayedPerSpec, if_pos hspec]
      refine ⟨List.pairwise_cons.mpr ⟨fun x hx => h.2 x hx p (by simp), h.1⟩, ?_⟩
      intro x hx q hq
      rcases List.mem_cons.mp hx with hx | hx
      · rw [hx]; exact hspec.2 q hq
      · exact h.2 x hx q (List.mem_append.mpr (Or.inl hq))
    · rw [relayedPerSpec, if_neg hspec]
      exact ⟨h.1, fun x hx q hq => h.2 x hx q (List.mem_append.mpr (Or.inl hq))⟩

theorem initStateVariables_valid (nat : native_data_t) (env thiz : Nat) (henv : env ≠ 0)
    (hthiz : thiz ≠ 0) : (nat.initStateVariables env thiz).isStateValid = true :=
  (isStateValid_iff _).mpr ⟨rfl, henv, hthiz⟩

/-- C3: from the state `initStateVariables` leaves at the start of a recognition call (calling
context present), for every finite sequence of progress events with an all-zero rectangle,
`progressJavaCallback` relays exactly the events whose percent is strictly greater than 0 and
strictly greater than the percent of every earlier event of the sequence, in order; the
relayed percents are strictly increasing. -/
theorem percent_only_relay (nat : native_data_t) (env thiz : Nat) (henv : env ≠ 0)
    (hthiz : thiz ≠ 0) (ps : List Int) :
    (runMonitor (nat.initStateVariables env thiz) (ps.map percentOnly)).relayed
        = (relayedPerSpec [] ps).map percentCall ∧
    List.Pairwise (fun a b => a < b)
      ((runMonitor (nat.initStateVariables env thiz) (ps.map percentOnly)).relayed.map
        OnProgressValues.progress) := by
  have h := runMonitor_percentOnly ps (nat.initStateVariables env thiz) []
    (initStateVariables_valid nat env thiz henv hthiz) (by simp) (le_refl _) (Or.inl rfl)
  refine ⟨h, ?_⟩
  rw [h, List.map_map]
  have hid : (OnProgressValues.progress ∘ percentCall) = id := by
    funext p; rfl
  rw [hid, List.map_id]
  exact (relayedPerSpec_increasing ps []).1

/-- C3 on the events `(10,0,0,0,0)`, `(5,0,0,0,0)`, `(20,0,0,0,0)`: exactly 10 and 20 are
relayed. -/
theorem percent_only_relay_witness :
    (7 ≠ 0 ∧ 9 ≠ 0) ∧
    (runMonitor (native_data_t.new.initStateVariables 7 9)
        [MonitorCall.progress 10 0 0 0 0, MonitorCall.progress 5 0 0 0 0,
         MonitorCall.progress 20 0 0 0 0]).relayed
      = [{ progress := 10, left := 0, right := 0, top := 0, bottom := 0 },
         { progress := 20, left := 0, right := 0, top := 0, bottom := 0 }] :=
  ⟨⟨by decide, by decide⟩,
    (percent_only_relay native_data_t.new 7 9 (by decide) (by decide) [10, 5, 20]).1.trans
      (by decide)⟩

/-! ## Recognition calls -/

theorem progress_keeps_cancel_ocr (nat : native_data_t) (p l r t b : Int) :
    (progressJavaCallback nat p l r t b).nat.cancel_ocr = nat.cancel_ocr := by
  unfold progressJavaCallback
  split_ifs <;> rfl

theorem runMonitor_of_not_cancelled (calls : List MonitorCall) :
    ∀ nat : native_data_t, nat.cancel_ocr = false →
      (runMonitor nat calls).nat.cancel_ocr = false ∧
      ∀ b ∈ (runMonitor nat calls).polls, b = false := by
  induction calls with
  | nil => intro nat h; simp [runMonitor, h]
  | cons c rest ih =>
    intro nat h
    cases c with
    | cancel words =>
      simp only [runMonitor, cancelFunc]
      refine ⟨(ih nat h).1, ?_⟩
      intro b hb
      rcases List.mem_cons.mp hb with hb | hb
      · rw [hb, h]
      · exact (ih nat h).2 b hb
    | progress p l r t b =>
      simp only [runMonitor]
      exact ih _ ((progress_keeps_cancel_ocr nat p l r t b).trans h)

theorem engineLoop_without_stop (honours : Bool) (calls : List MonitorCall) :
    ∀ nat : native_data_t, nat.cancel_ocr = false →
      engineLoop honours nat (calls.map CallStep.engine)
        = { trace := runMonitor nat calls, completed := true } := by
  induction calls with
  | nil => intro nat _; rfl
  | cons c rest ih =>
    intro nat h
    cases c with
    | cancel words =>
      simp only [List.map_cons, engineLoop, cancelFunc, h, Bool.false_and, runMonitor]
      rw [ih nat h]
      rfl
    | progress p l r t b =>
      simp only [List.map_cons, engineLoop, runMonitor]
      rw [ih _ ((progress_keeps_cancel_ocr nat p l r t b).trans h)]

theorem nativeGetHOCRText_eq (nat : native_data_t) (env thiz : Nat) (page : Int)
    (honours : Bool) (script : List CallStep) :
    nativeGetHOCRText nat env thiz page honours script
      = nativeGetUTF8Text nat env thiz honours script := rfl

theorem call_without_stop (nat : native_data_t) (env thiz : Nat) (honours : Bool)
    (calls : List MonitorCall) :
    (nativeGetUTF8Text nat env thiz honours (calls.map CallStep.engine)).completed = true ∧
    ∀ b ∈ (nativeGetUTF8Text nat env thiz honours (calls.map CallStep.engine)).trace.polls,
      b = false := by
  have h := engineLoop_without_stop honours calls (nat.initStateVariables env thiz) rfl
  have hp := runMonitor_of_not_cancelled calls (nat.initStateVariables env thiz) rfl
  simp only [nativeGetUTF8Text, h]
  exact ⟨trivial, hp.2⟩

theorem first_poll_false (nat : native_data_t) (env thiz : Nat) (honours : Bool) (words : Int)
    (rest : List CallStep) :
    (nativeGetUTF8Text nat env thiz honours
      (CallStep.engine (MonitorCall.cancel words) :: rest)).trace.polls.head? = some false := by
  simp [nativeGetUTF8Text, engineLoop, cancelFunc, native_data_t.initStateVariables]

theorem engineLoop_after_monitor (honours : Bool) (pre : List MonitorCall)
    (rest : List CallStep) :
    ∀ nat : native_data_t, nat.cancel_ocr = false →
      engineLoop honours nat (pre.map CallStep.engine ++ rest) =
        { trace :=
            { nat := (engineLoop honours (runMonitor nat pre).nat rest).trace.nat
              relayed := (runMonitor nat pre).relayed
                ++ (engineLoop honours (runMonitor nat pre).nat rest).trace.relayed
              polls := (runMonitor nat pre).polls
                ++ (engineLoop honours (runMonitor nat pre).nat rest).trace.polls }
          completed := (engineLoop honours (runMonitor nat pre).nat rest).completed } := by
  induction pre with
  | nil => intro nat _; simp [runMonitor]
  | cons c more ih =>
    intro nat h
    cases c with
    | cancel words =>
      rw [List.map_cons, List.cons_append]
      simp only [engineLoop, cancelFunc, h, Bool.false_and, runMonitor]
      rw [ih nat h]
      simp
    | progress p l r t b =>
      rw [List.map_cons, List.cons_append]
      simp only [engineLoop, runMonitor]
      rw [ih _ ((progress_keeps_cancel_ocr nat p l r t b).trans h)]
      simp

theorem engineLoop_dropped_progress (honours : Bool) (mid : List OnProgressValues)
    (rest : List CallStep) :
    ∀ nat : native_data_t, nat.cancel_ocr = true →
      engineLoop honours nat (mid.map progressStep ++ rest) = engineLoop honours nat rest := by
  induction mid with
  | nil => intro nat _; rfl
  | cons e more ih =>
    intro nat h
    rw [List.map_cons, List.cons_append]
    simp only [progressStep, engineLoop, progress_dropped_of_cancelled nat h, List.nil_append]
    exact ih nat h

theorem engineLoop_stopDuringCall (honours : Bool) (pre : List MonitorCall)
    (mid : List OnProgressValues) (words : Int) (rest : List CallStep) (nat : native_data_t)
    (h : nat.cancel_ocr = false) :
    (∃ tail, (engineLoop honours nat (stopDuringCall pre mid words rest)).trace.polls
        = (runMonitor nat pre).polls ++ true :: tail) ∧
    (engineLoop true nat (stopDuringCall pre mid words rest)).trace.polls
        = (runMonitor nat pre).polls ++ [true] ∧
    (engineLoop true nat (stopDuringCall pre mid words rest)).completed = false ∧
    (engineLoop true nat (stopDuringCall pre mid words rest)).trace.relayed
        = (runMonitor nat pre).relayed := by
  have hstop : ∀ hon : Bool,
      engineLoop hon (runMonitor nat pre).nat
          (CallStep.stop ::
            (mid.map progressStep ++ CallStep.engine (MonitorCall.cancel words) :: rest))
        = engineLoop hon (nativeStop (runMonitor nat pre).nat)
            (CallStep.engine (MonitorCall.cancel words) :: rest) := by
    intro hon
    rw [engineLoop, engineLoop_dropped_progress hon mid _ _ (nativeStop_cancel_ocr _)]
  unfold stopDuringCall
  rw [engineLoop_after_monitor honours pre _ nat h, engineLoop_after_monitor true pre _ nat h,
    hstop honours, hstop true]
  refine ⟨?_, ?_, ?_, ?_⟩
  · cases honours
    · exact ⟨_, by simp only [engineLoop, cancelFunc, nativeStop_cancel_ocr]; rfl⟩
    · exact ⟨[], by simp [engineLoop, cancelFunc, nativeStop_cancel_ocr]⟩
  · simp [engineLoop, cancelFunc, nativeStop_cancel_ocr]
  · simp [engineLoop, cancelFunc, nativeStop_cancel_ocr]
  · simp [engineLoop, cancelFunc, nativeStop_cancel_ocr]

/-- C6, as the code has it: when `nativeStop` is followed by a recognition call
(`nativeGetUTF8Text` or `nativeGetHOCRText`), the call starts by clearing the request, so the
cancel predicate answers `false` the first time the engine polls it, and, as long as no stop
arrives during the call, answers `false` to every poll and the engine runs its script out. A
stop that arrives during the call, before a poll, makes that poll answer `true` and ends the
call of an engine that honours the predicate. This holds wherever in the call the stop
arrives: after any callbacks the engine has made so far (whose polls were all answered
`false`), and with any progress events between the stop and the next poll, the next poll
answers `true`; an engine that honours the predicate returns at that poll, with nothing
relayed after the stop. -/
theorem stop_before_call_is_cleared (nat : native_data_t) (env thiz : Nat) (page : Int)
    (honours : Bool) :
    (∀ (words : Int) (rest : List CallStep),
        (nativeGetUTF8Text (nativeStop nat) env thiz honours
          (CallStep.engine (MonitorCall.cancel words) :: rest)).trace.polls.head? = some false ∧
        (nativeGetHOCRText (nativeStop nat) env thiz page honours
          (CallStep.engine (MonitorCall.cancel words) :: rest)).trace.polls.head? = some false) ∧
    (∀ calls : List MonitorCall,
        (nativeGetUTF8Text (nativeStop nat) env thiz honours
          (calls.map CallStep.engine)).completed = true ∧
        (∀ b ∈ (nativeGetUTF8Text (nativeStop nat) env thiz honours
          (calls.map CallStep.engine)).trace.polls, b = false) ∧
        (nativeGetHOCRText (nativeStop nat) env thiz page honours
          (calls.map CallStep.engine)).completed = true ∧
        (∀ b ∈ (nativeGetHOCRText (nativeStop nat) env thiz page honours
          (calls.map CallStep.engine)).trace.polls, b = false)) ∧
    (∀ (words : Int) (rest : List CallStep),
        (nativeGetUTF8Text (nativeStop nat) env thiz true
          (CallStep.stop :: CallStep.engine (MonitorCall.cancel words) :: rest)).trace.polls
            = [true] ∧
        (nativeGetUTF8Text (nativeStop nat) env thiz true
          (CallStep.stop :: CallStep.engine (MonitorCall.cancel words) :: rest)).completed
            = false) ∧
    (∀ (pre : List MonitorCall) (mid : List OnProgressValues) (words : Int)
        (rest : List CallStep),
        (∀ b ∈ (runMonitor ((nativeStop nat).initStateVariables env thiz) pre).polls,
          b = false) ∧
        (∃ tail, (nativeGetUTF8Text (nativeStop nat) env thiz honours
            (stopDuringCall pre mid words rest)).trace.polls
            = (runMonitor ((nativeStop nat).initStateVariables env thiz) pre).polls ++ true :: tail) ∧
        (nativeGetUTF8Text (nativeStop nat) env thiz true
            (stopDuringCall pre mid words rest)).trace.polls
            = (runMonitor ((nativeStop nat).initStateVariables env thiz) pre).polls ++ [true] ∧
        (nativeGetUTF8Text (nativeStop nat) env thiz true
            (stopDuringCall pre mid words rest)).completed = false ∧
        (nativeGetUTF8Text (nativeStop nat) env thiz true
            (stopDuringCall pre mid words rest)).trace.relayed
            = (runMonitor ((nativeStop nat).initStateVariables env thiz) pre).relayed ∧
        (∃ tail, (nativeGetHOCRText (nativeStop nat) env thiz page honours
            (stopDuringCall pre mid words rest)).trace.polls
            = (runMonitor ((nativeStop nat).initStateVariables env thiz) pre).polls ++ true :: tail) ∧
        (nativeGetHOCRText (nativeStop nat) env thiz page true
            (stopDuringCall pre mid words rest)).trace.polls
            = (runMonitor ((nativeStop nat).initStateVariables env thiz) pre).polls ++ [true] ∧
        (nativeGetHOCRText (nativeStop nat) env thiz page true
            (stopDuringCall pre mid words rest)).completed = false ∧
        (nativeGetHOCRText (nativeStop nat) env thiz page true
            (stopDuringCall pre mid words rest)).trace.relayed
            = (runMonitor ((nativeStop nat).initStateVariables env thiz) pre).relayed) := by
  refine ⟨fun words rest => ?_, fun calls => ?_, fun words rest => ?_,
    fun pre mid words rest => ?_⟩
  · rw [nativeGetHOCRText_eq]
    exact ⟨first_poll_false _ env thiz honours words rest,
      first_poll_false _ env thiz honours words rest⟩
  · rw [nativeGetHOCRText_eq]
    have h := call_without_stop (nativeStop nat) env thiz honours calls
    exact ⟨h.1, h.2, h.1, h.2⟩
  · simp [nativeGetUTF8Text, engineLoop, cancelFunc, nativeStop]
  · have hq := runMonitor_of_not_cancelled pre ((nativeStop nat).initStateVariables env thiz) rfl
    have h := engineLoop_stopDuringCall honours pre mid words rest
      ((nativeStop nat).initStateVariables env thiz) rfl
    rw [nativeGetHOCRText_eq, nativeGetHOCRText_eq]
    exact ⟨hq.2, h.1, h.2.1, h.2.2.1, h.2.2.2, h.1, h.2.1, h.2.2.1, h.2.2.2⟩

/-- C6 fails as stated: after `nativeStop` on a fresh handle, a recognition call whose engine
polls the cancel predicate once gets the answer `false` and runs to completion. -/
theorem stop_before_call_not_observed :
    (nativeGetUTF8Text (nativeStop native_data_t.new) 7 9 true
        [CallStep.engine (MonitorCall.cancel 0)]).trace.polls = [false] ∧
    (nativeGetUTF8Text (nativeStop native_data_t.new) 7 9 true
        [CallStep.engine (MonitorCall.cancel 0)]).completed = true := by
  decide

/-- C7: whatever the handle was, and whatever finite sequence of cancel polls, progress events
and stop requests occurs during a recognition call (`nativeGetUTF8Text` or
`nativeGetHOCRText`), whether the engine honours cancellation or not, when the call returns
the handle has `cancel_ocr = false` and both cached pointers null; a recognition call that
follows, during which no stop arrives, has every poll answered `false` and runs to
completion. -/
theorem call_end_resets_state (nat : native_data_t) (env thiz : Nat) (page : Int)
    (honours : Bool) (script : List CallStep) :
    (nativeGetUTF8Text nat env thiz honours script).trace.nat.cancel_ocr = false ∧
    (nativeGetUTF8Text nat env thiz honours script).trace.nat.cachedEnv = 0 ∧
    (nativeGetUTF8Text nat env thiz honours script).trace.nat.cachedObject = 0 ∧
    (nativeGetHOCRText nat env thiz page honours script).trace.nat.cancel_ocr = false ∧
    (nativeGetHOCRText nat env thiz page honours script).trace.nat.cachedEnv = 0 ∧
    (nativeGetHOCRText nat env thiz page honours script).trace.nat.cachedObject = 0 ∧
    (∀ (env2 thiz2 : Nat) (honours2 : Bool) (calls : List MonitorCall),
        (nativeGetUTF8Text (nativeGetUTF8Text nat env thiz honours script).trace.nat env2 thiz2
          honours2 (calls.map CallStep.engine)).completed = true ∧
        ∀ b ∈ (nativeGetUTF8Text (nativeGetUTF8Text nat env thiz honours script).trace.nat env2
          thiz2 honours2 (calls.map CallStep.engine)).trace.polls, b = false) := by
  refine ⟨rfl, rfl, rfl, rfl, rfl, rfl, fun env2 thiz2 honours2 calls => ?_⟩
  exact call_without_stop _ env2 thiz2 honours2 calls

/-! ## `lastProgress` within a call -/

theorem runMonitor_append (pre : List MonitorCall) (p l r t b : Int) :
    ∀ nat : native_data_t,
      (runMonitor nat (pre ++ [MonitorCall.progress p l r t b])).nat
        = (progressJavaCallback (runMonitor nat pre).nat p l r t b).nat := by
  induction pre with
  | nil => intro nat; rfl
  | cons c rest ih =>
    intro nat
    cases c with
    | cancel words =>
      simp only [List.cons_append, runMonitor, cancelFunc]
      exact ih nat
    | progress p2 l2 r2 t2 b2 =>
      simp only [List.cons_append, runMonitor]
      exact ih _

/-- C8, as the code has it: `lastProgress` is 0 at the start of a recognition call, and in
every handle state (so at any point of the call) a progress event whose four rectangle
coordinates are all zero leaves `lastProgress` greater than or equal to what it was; an event
with any rectangle leaves it either unchanged or equal to that event's percent. -/
theorem lastProgress_percent_only_monotone (nat : native_data_t) (env thiz : Nat) :
    (nat.initStateVariables env thiz).lastProgress = 0 ∧
    (∀ (s : native_data_t) (p : Int),
        s.lastProgress ≤ (progressJavaCallback s p 0 0 0 0).nat.lastProgress) ∧
    (∀ (s : native_data_t) (p l r t b : Int),
        (progressJavaCallback s p l r t b).nat.lastProgress = s.lastProgress ∨
        (progressJavaCallback s p l r t b).nat.lastProgress = p) ∧
    (∀ (pre : List MonitorCall) (p : Int),
        (runMonitor (nat.initStateVariables env thiz) pre).nat.lastProgress ≤
          (runMonitor (nat.initStateVariables env thiz)
            (pre ++ [MonitorCall.progress p 0 0 0 0])).nat.lastProgress) := by
  have hmono : ∀ (s : native_data_t) (p : Int),
      s.lastProgress ≤ (progressJavaCallback s p 0 0 0 0).nat.lastProgress := by
    intro s p
    unfold progressJavaCallback
    split_ifs with hv hc
    · simp at hc
      exact le_of_lt hc
    · exact le_refl _
    · exact le_refl _
  refine ⟨rfl, hmono, fun s p l r t b => ?_, fun pre p => ?_⟩
  · unfold progressJavaCallback
    split_ifs
    · exact Or.inr rfl
    · exact Or.inl rfl
    · exact Or.inl rfl
  · rw [runMonitor_append]
    exact hmono _ p

/-- C8 fails as stated: in a call that has reported 10 percent, the event `(5, 1, 0, 0, 0)` is
relayed and lowers `lastProgress` from 10 to 5. -/
theorem lastProgress_can_decrease :
    (runMonitor (native_data_t.new.initStateVariables 7 9)
        [MonitorCall.progress 10 0 0 0 0]).nat.lastProgress = 10 ∧
    (runMonitor (native_data_t.new.initStateVariables 7 9)
        [MonitorCall.progress 10 0 0 0 0, MonitorCall.progress 5 1 0 0 0]).nat.lastProgress = 5 ∧
    ¬ ((runMonitor (native_data_t.new.initStateVariables 7 9)
        [MonitorCall.progress 10 0 0 0 0]).nat.lastProgress ≤
      (progressJavaCallback (runMonitor (native_data_t.new.initStateVariables 7 9)
        [MonitorCall.progress 10 0 0 0 0]).nat 5 1 0 0 0).nat.lastProgress) := by
  decide

/-! ## Word confidences -/

theorem wrapInt32_of_inRange (x : Int) (hlo : -2147483648 ≤ x) (hhi : x < 2147483648) :
    wrapInt32 x = x := by
  unfold wrapInt32
  norm_num
  omega

theorem scanSentinel_first (pre rest : List Int) (hpre : (-1 : Int) ∉ pre) :
    ∀ len : Int, 0 ≤ len → len + pre.length < 2147483648 →
      scanSentinel len (pre ++ (-1) :: rest) = some (len + pre.length) := by
  induction pre with
  | nil => intro len _ _; simp [scanSentinel]
  | cons x xs ih =>
    intro len h0 hlt
    have hx : x ≠ -1 := fun h => hpre (by simp [h])
    have hxs : (-1 : Int) ∉ xs := fun h => hpre (List.mem_cons_of_mem _ h)
    simp only [List.length_cons, Nat.cast_add, Nat.cast_one] at hlt
    have hw : wrapInt32 (len + 1) = len + 1 := wrapInt32_of_inRange _ (by omega) (by omega)
    have hstep : scanSentinel len ((x :: xs) ++ (-1) :: rest)
        = scanSentinel (len + 1) (xs ++ (-1) :: rest) := by
      rw [List.cons_append, scanSentinel, hw]
      simp [hx]
    rw [hstep, ih hxs (len + 1) (by omega) (by omega)]
    simp only [List.length_cons, Nat.cast_add, Nat.cast_one]
    congr 1
    omega

theorem indexOf_first (pre rest : List Int) (hpre : (-1 : Int) ∉ pre) :
    (pre ++ (-1) :: rest).indexOf (-1) = pre.length := by
  induction pre with
  | nil => simp
  | cons x xs ih =>
    have hx : x ≠ -1 := fun h => hpre (by simp [h])
    have hxs : (-1 : Int) ∉ xs := fun h => hpre (List.mem_cons_of_mem _ h)
    rw [List.cons_append, List.indexOf_cons_ne _ hx, ih hxs, List.length_cons]

/-- C9: `nativeWordConfidences` turns the engine's sentinel-terminated sequence into a finite
array. For every native sequence `pre ++ -1 :: rest` in which `pre` holds no `-1` (so the first
`-1` sits at index `pre.length`, an index the 32-bit counter `len` can hold), the returned
array is exactly `pre`: its length is the index of the first `-1`, its elements are the ones
before it, in order, it holds no `-1` and nothing from after the sentinel. A null sequence
gives a null result. -/
theorem wordConfidences_upto_sentinel (pre rest : List Int) (hpre : (-1 : Int) ∉ pre)
    (hlen : pre.length < 2 ^ 31) :
    nativeWordConfidences (some (pre ++ (-1) :: rest)) = .ok (some pre) ∧
    pre.length = (pre ++ (-1) :: rest).indexOf (-1) ∧
    pre = (pre ++ (-1) :: rest).take ((pre ++ (-1) :: rest).indexOf (-1)) ∧
    nativeWordConfidences none = .ok none := by
  have hidx := indexOf_first pre rest hpre
  have hlen2 : (0 : Int) + pre.length < 2147483648 := by
    have : pre.length < 2147483648 := by simpa using hlen
    omega
  have hscan := scanSentinel_first pre rest hpre 0 (le_refl _) hlen2
  refine ⟨?_, hidx.symm, ?_, rfl⟩
  · simp only [nativeWordConfidences, hscan, zero_add]
    have hnn : ¬ ((pre.length : Int) < 0) := by omega
    rw [if_neg hnn]
    simp
  · rw [hidx]
    simp

/-- C9 on the sequence `90, 85, -1, 70, -1`: the array is `90, 85`. -/
theorem wordConfidences_upto_sentinel_witness :
    ((-1 : Int) ∉ [90, 85] ∧ [(90 : Int), 85].length < 2 ^ 31) ∧
    nativeWordConfidences (some [90, 85, -1, 70, -1]) = .ok (some [90, 85]) :=
  ⟨⟨by decide, by decide⟩,
    (wordConfidences_upto_sentinel [90, 85] [70, -1] (by decide) (by decide)).1⟩

/-! ## Heap lemmas -/

theorem store_head (p i v : Nat) (buf : List Nat) (bs : List (Nat × List Nat))
    (lg : List MemEvent) (hbs : ∀ c ∈ bs, c.1 ≠ p) (hi : i < buf.length) :
    Heap.store { blocks := (p, buf) :: bs, log := lg } p i v
      = .ok { blocks := (p, buf.set i v) :: bs, log := lg } := by
  have hmap : bs.map (fun c => if c.1 == p then (c.1, c.2.set i v) else c) = bs := by
    conv_rhs => rw [← List.map_id bs]
    apply List.map_congr_left
    intro c hc
    simp [hbs c hc]
  have hmap2 : bs.map (fun c => if c.1 = p then (c.1, c.2.set i v) else c) = bs := by
    simpa using hmap
  simp [Heap.store, hi, hmap2]

theorem copyLoop_upto (p : Nat) (data : List Int) (bs : List (Nat × List Nat))
    (lg : List MemEvent) (hbs : ∀ c ∈ bs, c.1 ≠ p) :
    ∀ k, k ≤ data.length →
      copyLoop { blocks := (p, List.replicate data.length 0) :: bs, log := lg } p data k
        = .ok { blocks := (p, (data.take k).map toUChar ++ List.replicate (data.length - k) 0)
                            :: bs,
                log := lg } := by
  intro k
  induction k with
  | zero => intro _; simp [copyLoop]; rfl
  | succ k ih =>
    intro hk
    have hk1 : k ≤ data.length := by omega
    have hk2 : k < data.length := by omega
    have ih1 := ih hk1
    unfold copyLoop at ih1 ⊢
    rw [List.range_succ, List.foldlM_append, ih1]
    simp only [List.foldlM_cons, List.foldlM_nil]
    have hlen : k < ((data.take k).map toUChar ++ List.replicate (data.length - k) 0).length := by
      simp; omega
    show (Heap.store _ p k _ >>= pure) = _
    rw [store_head p k _ _ bs lg hbs hlen]
    have hset : ((data.take k).map toUChar ++ List.replicate (data.length - k) 0).set k
          (toUChar (data.getD k 0))
        = (data.take (k + 1)).map toUChar ++ List.replicate (data.length - (k + 1)) 0 := by
      have h1 : ((data.take k).map toUChar).length = k := by simp; omega
      have hrep : List.replicate (data.length - k) 0
          = (0 : Nat) :: List.replicate (data.length - (k + 1)) 0 := by
        have : data.length - k = (data.length - (k + 1)) + 1 := by omega
        rw [this, List.replicate_succ]
      rw [hrep]
      have h2 := List.set_append_right (s := (data.take k).map toUChar)
        (t := (0 : Nat) :: List.replicate (data.length - (k + 1)) 0) k
        (toUChar (data.getD k 0)) (le_of_eq h1)
      rw [h2, h1, Nat.sub_self, List.set_cons_zero]
      rw [List.take_succ, List.map_append, List.append_assoc]
      congr 1
      simp [List.getD_eq_getElem?_getD, List.getElem?_eq_getElem hk2]
    rw [hset]
    rfl

theorem replay_append (l1 l2 : List MemEvent) :
    ∀ live : List Nat, replay live (l1 ++ l2) = (replay live l1).bind (fun m => replay m l2) := by
  induction l1 with
  | nil => intro live; rfl
  | cons e rest ih =>
    intro live
    cases e with
    | alloc p =>
      simp only [List.cons_append, replay]
      split_ifs
      · rfl
      · exact ih _
    | free p =>
      simp only [List.cons_append, replay]
      split_ifs
      · exact ih _
      · rfl

theorem bumpAllocator_sound : Allocator.Sound bumpAllocator := by
  intro h size
  refine ⟨Nat.succ_ne_zero _, ?_⟩
  have hle : ∀ (l : List Nat), ∀ x ∈ l, x ≤ l.foldr max 0 := by
    intro l
    induction l with
    | nil => intro x hx; simp at hx
    | cons a t ih =>
      intro x hx
      rcases List.mem_cons.mp hx with hx | hx
      · rw [hx]; exact le_max_left _ _
      · exact le_trans (ih x hx) (le_max_right _ _)
  intro hmem
  have := hle h.live _ hmem
  simp only [bumpAllocator] at this
  omega

theorem blocks_of_live_singleton (h : Heap) (d : Nat) (hl : h.live = [d]) :
    ∃ c, h.blocks = [(d, c)] := by
  unfold Heap.live at hl
  match hb : h.blocks, hl with
  | [b], hl =>
    refine ⟨b.2, ?_⟩
    simp [hb] at hl
    cases b
    simp_all

theorem blocks_of_live_nil (h : Heap) (hl : h.live = []) : h.blocks = [] := by
  unfold Heap.live at hl
  simpa using hl

/-- The statement `if (nat->data != NULL) free(nat->data);` on a consistent world. -/
theorem release_consistent (w : World) (hw : w.Consistent) :
    ∃ h, (∀ (β : Type) (k : Heap → Except Fault β),
        (if w.nat.data != 0 then free w.heap w.nat.data >>= k else pure w.heap >>= k) = k h) ∧
      h.blocks = [] ∧
      h.log = w.heap.log ++ (if w.nat.data ≠ 0 then [MemEvent.free w.nat.data] else []) ∧
      replay [] h.log = some [] ∧
      ∀ q, List.count (MemEvent.alloc q) h.log = List.count (MemEvent.free q) h.log := by
  obtain ⟨hlive, hrep, hcnt⟩ := hw
  by_cases hd : w.nat.data = 0
  · simp only [hd, ne_eq, not_true_eq_false, if_false] at hlive
    refine ⟨w.heap, fun β k => by simp [hd], blocks_of_live_nil _ hlive, by simp [hd], ?_, ?_⟩
    · rw [hrep, hlive]
    · intro q
      have := hcnt q
      rw [hlive] at this
      simpa using this
  · simp only [ne_eq, hd, not_false_eq_true, if_true] at hlive
    obtain ⟨c, hb⟩ := blocks_of_live_singleton _ _ hlive
    refine ⟨{ blocks := [], log := w.heap.log ++ [MemEvent.free w.nat.data] }, ?_, rfl, ?_, ?_, ?_⟩
    · intro β k
      simp [hd, free, hlive, hb]
      rfl
    · simp [hd]
    · simp only [replay_append, hrep, hlive, Option.bind]
      simp [replay]
    · intro q
      have := hcnt q
      rw [hlive] at this
      simp only [List.count_append, List.count_singleton, List.count_cons, List.count_nil,
        zero_add] at this ⊢
      simp only [beq_iff_eq, MemEvent.alloc.injEq, MemEvent.free.injEq, reduceCtorEq,
        if_false, add_zero] at this ⊢
      rw [this]

theorem copyLoop_full (p : Nat) (data : List Int) (bs : List (Nat × List Nat))
    (lg : List MemEvent) (hbs : ∀ c ∈ bs, c.1 ≠ p) :
    copyLoop { blocks := (p, List.replicate data.length 0) :: bs, log := lg } p data data.length
      = .ok { blocks := (p, data.map toUChar) :: bs, log := lg } := by
  rw [copyLoop_upto p data bs lg hbs data.length (le_refl _)]
  simp

/-- The five worlds `nativeSetImageBytes` goes through on a consistent world. -/
theorem setImageBytes_steps (al : Allocator) (hal : al.Sound) (w : World)
    (hlive : w.heap.live = (if w.nat.data ≠ 0 then [w.nat.data] else []))
    (data : List Int) (width height bpp bpl : Int) :
    nativeSetImageBytesSteps al w data width height bpp bpl = .ok
      [ { nat := w.nat
          heap := { blocks := (al w.heap data.length, List.replicate data.length 0)
                                :: w.heap.blocks,
                    log := w.heap.log ++ [MemEvent.alloc (al w.heap data.length)] } },
        { nat := w.nat
          heap := { blocks := (al w.heap data.length, data.map toUChar) :: w.heap.blocks,
                    log := w.heap.log ++ [MemEvent.alloc (al w.heap data.length)] } },
        { nat := { w.nat with api := { image := al w.heap data.length } }
          heap := { blocks := (al w.heap data.length, data.map toUChar) :: w.heap.blocks,
                    log := w.heap.log ++ [MemEvent.alloc (al w.heap data.length)] } },
        { nat := { w.nat with api := { image := al w.heap data.length } }
          heap := { blocks := [(al w.heap data.length, data.map toUChar)],
                    log := w.heap.log ++ MemEvent.alloc (al w.heap data.length) ::
                      (if w.nat.data ≠ 0 then [MemEvent.free w.nat.data] else []) } },
        { nat := { w.nat with api := { image := al w.heap data.length },
                              data := al w.heap data.length }
          heap := { blocks := [(al w.heap data.length, data.map toUChar)],
                    log := w.heap.log ++ MemEvent.alloc (al w.heap data.length) ::
                      (if w.nat.data ≠ 0 then [MemEvent.free w.nat.data] else []) } } ] := by
  obtain ⟨hp0, hpl⟩ := hal w.heap data.length
  generalize hpdef : al w.heap data.length = p at hp0 hpl ⊢
  have hbs : ∀ c ∈ w.heap.blocks, c.1 ≠ p := by
    intro c hc hcp
    exact hpl (by rw [← hcp]; exact List.mem_map_of_mem Prod.fst hc)
  have hcopy := copyLoop_full p data w.heap.blocks (w.heap.log ++ [MemEvent.alloc p]) hbs
  unfold nativeSetImageBytesSteps
  simp only [malloc, hpdef, hp0, if_false, hcopy]
  by_cases hd : w.nat.data = 0
  · rw [hd] at hlive
    simp only [ne_eq, not_true_eq_false, if_false] at hlive
    have hb := blocks_of_live_nil _ hlive
    simp [hd, hb, Engine.SetImage]
  · simp only [ne_eq, hd, not_false_eq_true, if_true] at hlive
    obtain ⟨c, hb⟩ := blocks_of_live_singleton _ _ hlive
    have hne : w.nat.data ≠ p := by
      intro h
      apply hpl
      rw [hlive, h]
      exact List.mem_singleton.mpr rfl
    have hne2 : p ≠ w.nat.data := fun h => hne h.symm
    simp [hd, hb, Engine.SetImage, free, Heap.live, hne, hne2, bind, Except.bind, Functor.map,
      Except.map]
    rfl

theorem nativeConstruct_consistent : nativeConstruct.Consistent := by
  refine ⟨rfl, rfl, fun q => ?_⟩
  simp [nativeConstruct, Heap.empty, Heap.live]

theorem setImageBytes_consistent (al : Allocator) (hal : al.Sound) (w : World)
    (hw : w.Consistent) (data : List Int) (width height bpp bpl : Int) :
    ∃ w1, nativeSetImageBytes al w data width height bpp bpl = .ok w1 ∧ w1.Consistent ∧
      w1.nat.data = al w.heap data.length ∧ w1.nat.data ≠ 0 ∧
      w1.heap.blocks = [(w1.nat.data, data.map toUChar)] ∧
      w1.nat.api.image = w1.nat.data ∧
      w1.heap.log = w.heap.log ++ MemEvent.alloc w1.nat.data ::
        (if w.nat.data ≠ 0 then [MemEvent.free w.nat.data] else []) ∧
      w1.nat.data ∉ w.heap.live := by
  have hsteps := setImageBytes_steps al hal w hw.1 data width height bpp bpl
  obtain ⟨hp0, hpl⟩ := hal w.heap data.length
  obtain ⟨hlive, hrep, hcnt⟩ := hw
  generalize hpdef : al w.heap data.length = p at hsteps hp0 hpl ⊢
  refine ⟨_, by unfold nativeSetImageBytes; rw [hsteps]; rfl, ?_, rfl, hp0, rfl, rfl, rfl, hpl⟩
  simp only [List.getLastD_cons, List.getLastD_nil]
  refine ⟨by simp [Heap.live, hp0], ?_, ?_⟩
  · change replay [] (w.heap.log ++ MemEvent.alloc p :: _) = some [p]
    rw [replay_append, hrep]
    by_cases hd : w.nat.data = 0
    · simp only [hd, ne_eq, not_true_eq_false, if_false] at hlive ⊢
      simp [replay, hlive]
    · simp only [ne_eq, hd, not_false_eq_true, if_true] at hlive ⊢
      have hne : ¬ (p = w.nat.data) := by
        intro h
        apply hpl
        rw [hlive, h]
        exact List.mem_singleton.mpr rfl
      simp [replay, hlive, hne]
  · intro q
    change List.count (MemEvent.alloc q) (w.heap.log ++ MemEvent.alloc p :: _)
      = List.count (MemEvent.free q) (w.heap.log ++ MemEvent.alloc p :: _) + List.count q [p]
    have hq := hcnt q
    by_cases hd : w.nat.data = 0
    · simp only [hd, ne_eq, not_true_eq_false, if_false] at hlive ⊢
      rw [hlive] at hq
      simp only [List.count_append, List.count_cons, List.count_nil, beq_iff_eq,
        MemEvent.alloc.injEq, reduceCtorEq, if_false, zero_add, add_zero] at hq ⊢
      omega
    · simp only [ne_eq, hd, not_false_eq_true, if_true] at hlive ⊢
      rw [hlive] at hq
      have hne : ¬ (p = w.nat.data) := by
        intro h
        apply hpl
        rw [hlive, h]
        exact List.mem_singleton.mpr rfl
      simp only [List.count_append, List.count_cons, List.count_nil, beq_iff_eq,
        MemEvent.alloc.injEq, MemEvent.free.injEq, reduceCtorEq, if_false, zero_add,
        add_zero] at hq ⊢
      omega

theorem clear_consistent (w : World) (hw : w.Consistent) :
    ∃ w1, nativeClear w = .ok w1 ∧ w1.Consistent ∧ w1.nat.data = 0 ∧ w1.heap.blocks = [] ∧
      w1.heap.log = w.heap.log ++ (if w.nat.data ≠ 0 then [MemEvent.free w.nat.data] else []) := by
  obtain ⟨h, hrel, hb, hlog, hrep, hcnt⟩ := release_consistent w hw
  refine ⟨{ nat := { w.nat with api := w.nat.api.Clear, data := 0 }, heap := h }, ?_, ?_, rfl, hb,
    hlog⟩
  · exact hrel _ _
  · refine ⟨by simp [Heap.live, hb], by simp [Heap.live, hb, hrep], fun q => ?_⟩
    simp [Heap.live, hb, hcnt q]

theorem end_consistent (w : World) (hw : w.Consistent) :
    ∃ w1, nativeEnd w = .ok w1 ∧ w1.Consistent ∧ w1.nat.data = 0 ∧ w1.heap.blocks = [] ∧
      w1.heap.log = w.heap.log ++ (if w.nat.data ≠ 0 then [MemEvent.free w.nat.data] else []) := by
  obtain ⟨h, hrel, hb, hlog, hrep, hcnt⟩ := release_consistent w hw
  refine ⟨{ nat := { w.nat with api := w.nat.api.End, data := 0 }, heap := h }, ?_, ?_, rfl, hb,
    hlog⟩
  · exact hrel _ _
  · refine ⟨by simp [Heap.live, hb], by simp [Heap.live, hb, hrep], fun q => ?_⟩
    simp [Heap.live, hb, hcnt q]

theorem applyOp_consistent (al : Allocator) (hal : al.Sound) (w : World) (hw : w.Consistent)
    (op : Op) :
    ∃ w1, applyOp al w op = .ok w1 ∧ w1.Consistent ∧
      List.countP MemEvent.isAlloc w1.heap.log
        = List.countP MemEvent.isAlloc w.heap.log + (if op.isSetImage then 1 else 0) ∧
      List.countP MemEvent.isFree w1.heap.log + w1.heap.live.length
        = List.countP MemEvent.isFree w.heap.log + w.heap.live.length
          + (if op.isSetImage then 1 else 0) := by
  have hlive := hw.1
  cases op with
  | nativeSetImageBytes data width height bpp bpl =>
    obtain ⟨w1, h1, h2, -, h0, hb, -, hlog, -⟩ :=
      setImageBytes_consistent al hal w hw data width height bpp bpl
    refine ⟨w1, h1, h2, ?_, ?_⟩
    · rw [hlog]
      by_cases hd : w.nat.data = 0 <;>
        simp [hd, List.countP_append, List.countP_cons, MemEvent.isAlloc, Op.isSetImage]
    · rw [hlog, hlive]
      by_cases hd : w.nat.data = 0 <;>
        simp [hd, hb, Heap.live, List.countP_append, List.countP_cons, MemEvent.isFree,
          Op.isSetImage]
  | nativeClear =>
    obtain ⟨w1, h1, h2, -, hb, hlog⟩ := clear_consistent w hw
    refine ⟨w1, h1, h2, ?_, ?_⟩
    · rw [hlog]
      by_cases hd : w.nat.data = 0 <;>
        simp [hd, List.countP_append, List.countP_cons, MemEvent.isAlloc, Op.isSetImage]
    · rw [hlog, hlive]
      by_cases hd : w.nat.data = 0 <;>
        simp [hd, hb, Heap.live, List.countP_append, List.countP_cons, MemEvent.isFree,
          Op.isSetImage]
  | nativeEnd =>
    obtain ⟨w1, h1, h2, -, hb, hlog⟩ := end_consistent w hw
    refine ⟨w1, h1, h2, ?_, ?_⟩
    · rw [hlog]
      by_cases hd : w.nat.data = 0 <;>
        simp [hd, List.countP_append, List.countP_cons, MemEvent.isAlloc, Op.isSetImage]
    · rw [hlog, hlive]
      by_cases hd : w.nat.data = 0 <;>
        simp [hd, hb, Heap.live, List.countP_append, List.countP_cons, MemEvent.isFree,
          Op.isSetImage]

theorem runOps_consistent (al : Allocator) (hal : al.Sound) (ops : List Op) :
    ∀ w : World, w.Consistent →
      ∃ w1, runOps al w ops = .ok w1 ∧ w1.Consistent ∧
        List.countP MemEvent.isAlloc w1.heap.log
          = List.countP MemEvent.isAlloc w.heap.log + List.countP Op.isSetImage ops ∧
        List.countP MemEvent.isFree w1.heap.log + w1.heap.live.length
          = List.countP MemEvent.isFree w.heap.log + w.heap.live.length
            + List.countP Op.isSetImage ops := by
  induction ops with
  | nil => intro w hw; exact ⟨w, rfl, hw, by simp, by simp⟩
  | cons op rest ih =>
    intro w hw
    obtain ⟨w1, h1, hc1, ha1, hf1⟩ := applyOp_consistent al hal w hw op
    obtain ⟨w2, h2, hc2, ha2, hf2⟩ := ih w1 hc1
    refine ⟨w2, ?_, hc2, ?_, ?_⟩
    · simp only [runOps, h1]
      exact h2
    · rw [ha2, ha1, List.countP_cons]
      omega
    · rw [hf2, hf1, List.countP_cons]
      omega

theorem finalize_consistent (w : World) (hw : w.Consistent) :
    ∃ h, nativeFinalize w = .ok h ∧ h.live = [] ∧
      h.log = w.heap.log ++ (if w.nat.data ≠ 0 then [MemEvent.free w.nat.data] else []) ∧
      replay [] h.log = some [] ∧
      (∀ q, List.count (MemEvent.alloc q) h.log = List.count (MemEvent.free q) h.log) ∧
      List.countP MemEvent.isAlloc h.log = List.countP MemEvent.isAlloc w.heap.log ∧
      List.countP MemEvent.isFree h.log
        = List.countP MemEvent.isFree w.heap.log + w.heap.live.length := by
  obtain ⟨h, hrel, hb, hlog, hrep, hcnt⟩ := release_consistent w hw
  refine ⟨h, ?_, by simp [Heap.live, hb], hlog, hrep, hcnt, ?_, ?_⟩
  · exact hrel _ _
  · rw [hlog]
    by_cases hd : w.nat.data = 0 <;>
      simp [hd, List.countP_append, List.countP_cons, MemEvent.isAlloc]
  · rw [hlog, hw.1]
    by_cases hd : w.nat.data = 0 <;>
      simp [hd, List.countP_append, List.countP_cons, MemEvent.isFree]

theorem runOps_append (al : Allocator) (l1 l2 : List Op) :
    ∀ (w w1 : World), runOps al w l1 = .ok w1 → runOps al w (l1 ++ l2) = runOps al w1 l2 := by
  induction l1 with
  | nil =>
    intro w w1 h
    simp only [runOps, Except.ok.injEq] at h
    rw [h]
    rfl
  | cons op rest ih =>
    intro w w1 h
    simp only [runOps, List.cons_append] at h ⊢
    cases hop : applyOp al w op with
    | error f => rw [hop] at h; simp at h
    | ok w2 =>
      rw [hop] at h
      simp only [] at h ⊢
      exact ih w2 w1 h

/-! ## Image buffer ownership -/

/-- C1: with the native heap as an explicit set of live image buffers and an allocator that
returns fresh non-null addresses, for every finite sequence of `nativeSetImageBytes`,
`nativeClear` and `nativeEnd` after `nativeConstruct`: no operation faults; afterwards the live
buffers are exactly the one `nat->data` points to when it is non-null and none otherwise (so
at most one), and the heap history holds one allocation per `nativeSetImageBytes` performed.
A further `nativeClear` or `nativeEnd` leaves no live buffer and only appends to the history
the release of the buffer that was held; a further `nativeSetImageBytes` appends the
allocation of a buffer that was not live and the release of the one that was held.
`nativeFinalize` then succeeds, leaves no live buffer and only appends the release of the
held buffer; in the final history every allocation is matched by exactly one release: it
replays without a double release to the empty set, for every address allocations and releases
are equally many, and both the allocations and the releases are as many as the
`nativeSetImageBytes` performed. A `nativeSetImageBytes` followed at once by `nativeFinalize`
allocates one buffer and releases it. -/
theorem image_buffer_lifecycle (al : Allocator) (hal : al.Sound) (ops : List Op) :
    ∃ w, runOps al nativeConstruct ops = .ok w ∧
      w.heap.live = (if w.nat.data ≠ 0 then [w.nat.data] else []) ∧
      w.heap.live.length ≤ 1 ∧
      List.countP MemEvent.isAlloc w.heap.log = List.countP Op.isSetImage ops ∧
      (∃ wc, runOps al nativeConstruct (ops ++ [Op.nativeClear]) = .ok wc ∧
        wc.nat.data = 0 ∧ wc.heap.live = [] ∧
        wc.heap.log
          = w.heap.log ++ (if w.nat.data ≠ 0 then [MemEvent.free w.nat.data] else [])) ∧
      (∃ we, runOps al nativeConstruct (ops ++ [Op.nativeEnd]) = .ok we ∧
        we.nat.data = 0 ∧ we.heap.live = [] ∧
        we.heap.log
          = w.heap.log ++ (if w.nat.data ≠ 0 then [MemEvent.free w.nat.data] else [])) ∧
      (∃ hf, nativeFinalize w = .ok hf ∧ hf.live = [] ∧
        hf.log = w.heap.log ++ (if w.nat.data ≠ 0 then [MemEvent.free w.nat.data] else []) ∧
        replay [] hf.log = some [] ∧
        (∀ q, List.count (MemEvent.alloc q) hf.log = List.count (MemEvent.free q) hf.log) ∧
        List.countP MemEvent.isAlloc hf.log = List.countP Op.isSetImage ops ∧
        List.countP MemEvent.isFree hf.log = List.countP Op.isSetImage ops) ∧
      (∀ (data : List Int) (width height bpp bpl : Int),
        ∃ ws hf, runOps al nativeConstruct
            (ops ++ [Op.nativeSetImageBytes data width height bpp bpl]) = .ok ws ∧
          ws.nat.data ≠ 0 ∧ ws.nat.data ∉ w.heap.live ∧ ws.heap.live = [ws.nat.data] ∧
          ws.heap.log = w.heap.log ++ MemEvent.alloc ws.nat.data ::
            (if w.nat.data ≠ 0 then [MemEvent.free w.nat.data] else []) ∧
          nativeFinalize ws = .ok hf ∧ hf.live = [] ∧
          hf.log = ws.heap.log ++ [MemEvent.free ws.nat.data]) := by
  obtain ⟨w, hrun, hw, hallocs, hfrees⟩ :=
    runOps_consistent al hal ops nativeConstruct nativeConstruct_consistent
  have hallocs2 : List.countP MemEvent.isAlloc w.heap.log = List.countP Op.isSetImage ops := by
    simpa [nativeConstruct, Heap.empty] using hallocs
  have hfrees2 : List.countP MemEvent.isFree w.heap.log + w.heap.live.length
      = List.countP Op.isSetImage ops := by
    simpa [nativeConstruct, Heap.empty, Heap.live] using hfrees
  refine ⟨w, hrun, hw.1, ?_, hallocs2, ?_, ?_, ?_, ?_⟩
  · rw [hw.1]
    split_ifs <;> simp
  · obtain ⟨wc, h1, -, h3, h4, h5⟩ := clear_consistent w hw
    refine ⟨wc, ?_, h3, by simp [Heap.live, h4], h5⟩
    rw [runOps_append al ops _ nativeConstruct w hrun]
    simp only [runOps, applyOp, h1]
  · obtain ⟨we, h1, -, h3, h4, h5⟩ := end_consistent w hw
    refine ⟨we, ?_, h3, by simp [Heap.live, h4], h5⟩
    rw [runOps_append al ops _ nativeConstruct w hrun]
    simp only [runOps, applyOp, h1]
  · obtain ⟨hf, h1, h2, h3, h4, h5, h6, h7⟩ := finalize_consistent w hw
    exact ⟨hf, h1, h2, h3, h4, h5, h6.trans hallocs2, h7.trans hfrees2⟩
  · intro data width height bpp bpl
    obtain ⟨ws, h1, hc, -, h0, hb, -, hlog, hfresh⟩ :=
      setImageBytes_consistent al hal w hw data width height bpp bpl
    obtain ⟨hf, f1, f2, f3, -, -⟩ := finalize_consistent ws hc
    refine ⟨ws, hf, ?_, h0, hfresh, by simp [Heap.live, hb], hlog, f1, f2, ?_⟩
    · rw [runOps_append al ops _ nativeConstruct w hrun]
      simp only [runOps, applyOp, h1]
    · rw [f3, if_pos h0]

/-- C1 with the allocator that returns one past the largest live address, on the sequence
set image, set image, clear, set image. -/
theorem image_buffer_lifecycle_witness :
    Allocator.Sound bumpAllocator ∧
    ∃ w, runOps bumpAllocator nativeConstruct
        [Op.nativeSetImageBytes [1, -1] 2 1 8 2, Op.nativeSetImageBytes [3] 1 1 8 1,
          Op.nativeClear, Op.nativeSetImageBytes [5, 6] 1 2 8 1] = .ok w ∧
      w.heap.live = (if w.nat.data ≠ 0 then [w.nat.data] else []) ∧
      w.heap.live.length ≤ 1 ∧
      List.countP MemEvent.isAlloc w.heap.log = List.countP Op.isSetImage [Op.nativeSetImageBytes [1, -1] 2 1 8 2, Op.nativeSetImageBytes [3] 1 1 8 1,
          Op.nativeClear, Op.nativeSetImageBytes [5, 6] 1 2 8 1] ∧
      (∃ wc, runOps bumpAllocator nativeConstruct ([Op.nativeSetImageBytes [1, -1] 2 1 8 2, Op.nativeSetImageBytes [3] 1 1 8 1,
          Op.nativeClear, Op.nativeSetImageBytes [5, 6] 1 2 8 1] ++ [Op.nativeClear]) = .ok wc ∧
        wc.nat.data = 0 ∧ wc.heap.live = [] ∧
        wc.heap.log
          = w.heap.log ++ (if w.nat.data ≠ 0 then [MemEvent.free w.nat.data] else [])) ∧
      (∃ we, runOps bumpAllocator nativeConstruct ([Op.nativeSetImageBytes [1, -1] 2 1 8 2, Op.nativeSetImageBytes [3] 1 1 8 1,
          Op.nativeClear, Op.nativeSetImageBytes [5, 6] 1 2 8 1] ++ [Op.nativeEnd]) = .ok we ∧
        we.nat.data = 0 ∧ we.heap.live = [] ∧
        we.heap.log
          = w.heap.log ++ (if w.nat.data ≠ 0 then [MemEvent.free w.nat.data] else [])) ∧
      (∃ hf, nativeFinalize w = .ok hf ∧ hf.live = [] ∧
        hf.log = w.heap.log ++ (if w.nat.data ≠ 0 then [MemEvent.free w.nat.data] else []) ∧
        replay [] hf.log = some [] ∧
        (∀ q, List.count (MemEvent.alloc q) hf.log = List.count (MemEvent.free q) hf.log) ∧
        List.countP MemEvent.isAlloc hf.log = List.countP Op.isSetImage [Op.nativeSetImageBytes [1, -1] 2 1 8 2, Op.nativeSetImageBytes [3] 1 1 8 1,
          Op.nativeClear, Op.nativeSetImageBytes [5, 6] 1 2 8 1] ∧
        List.countP MemEvent.isFree hf.log = List.countP Op.isSetImage [Op.nativeSetImageBytes [1, -1] 2 1 8 2, Op.nativeSetImageBytes [3] 1 1 8 1,
          Op.nativeClear, Op.nativeSetImageBytes [5, 6] 1 2 8 1]) ∧
      (∀ (data : List Int) (width height bpp bpl : Int),
        ∃ ws hf, runOps bumpAllocator nativeConstruct
            ([Op.nativeSetImageBytes [1, -1] 2 1 8 2, Op.nativeSetImageBytes [3] 1 1 8 1,
          Op.nativeClear, Op.nativeSetImageBytes [5, 6] 1 2 8 1] ++ [Op.nativeSetImageBytes data width height bpp bpl]) = .ok ws ∧
          ws.nat.data ≠ 0 ∧ ws.nat.data ∉ w.heap.live ∧ ws.heap.live = [ws.nat.data] ∧
          ws.heap.log = w.heap.log ++ MemEvent.alloc ws.nat.data ::
            (if w.nat.data ≠ 0 then [MemEvent.free w.nat.data] else []) ∧
          nativeFinalize ws = .ok hf ∧ hf.live = [] ∧
          hf.log = ws.heap.log ++ [MemEvent.free ws.nat.data]) :=
  ⟨bumpAllocator_sound, image_buffer_lifecycle bumpAllocator bumpAllocator_sound _⟩

/-- C10, as the code has it: on a handle that already holds an image buffer,
`nativeSetImageBytes` first allocates the new buffer, copies the caller's bytes into it (as
unsigned chars) and points the engine at it, all while the previous buffer is still live, and
only then releases the previous buffer and stores the new pointer: two buffers are live from
the allocation up to that release, and exactly the new one is live when the operation ends. -/
theorem setImage_releases_previous_last (al : Allocator) (hal : al.Sound) (w : World)
    (hdata : w.nat.data ≠ 0) (hlive : w.heap.live = [w.nat.data])
    (data : List Int) (width height bpp bpl : Int) :
    ∃ p w1 w2 w3 w4 w5,
      nativeSetImageBytesSteps al w data width height bpp bpl = .ok [w1, w2, w3, w4, w5] ∧
      nativeSetImageBytes al w data width height bpp bpl = .ok w5 ∧
      p ≠ 0 ∧ p ≠ w.nat.data ∧
      w1.heap.live = [p, w.nat.data] ∧ w1.heap.log = w.heap.log ++ [MemEvent.alloc p] ∧
      w2.heap.live = [p, w.nat.data] ∧ w2.heap.blocks.head? = some (p, data.map toUChar) ∧
      w3.heap.live = [p, w.nat.data] ∧ w3.nat.api.image = p ∧ w3.nat.data = w.nat.data ∧
      w4.heap.live = [p] ∧
      w4.heap.log = w.heap.log ++ [MemEvent.alloc p, MemEvent.free w.nat.data] ∧
      w4.nat.data = w.nat.data ∧
      w5.heap = w4.heap ∧ w5.nat.data = p ∧ w5.nat.api.image = p := by
  have hl : w.heap.live = (if w.nat.data ≠ 0 then [w.nat.data] else []) := by
    rw [if_pos hdata]; exact hlive
  have hsteps := setImageBytes_steps al hal w hl data width height bpp bpl
  obtain ⟨hp0, hpl⟩ := hal w.heap data.length
  have hne : al w.heap data.length ≠ w.nat.data := by
    intro h
    apply hpl
    rw [hlive, h]
    exact List.mem_singleton.mpr rfl
  have hlive2 : w.heap.blocks.map Prod.fst = [w.nat.data] := hlive
  refine ⟨al w.heap data.length, _, _, _, _, _, hsteps, ?_, hp0, hne, ?_, rfl, ?_, rfl, ?_, rfl,
    rfl, rfl, ?_, rfl, rfl, rfl, rfl⟩
  · unfold nativeSetImageBytes
    rw [hsteps]
    rfl
  · simp [Heap.live, hlive2]
  · simp [Heap.live, hlive2]
  · simp [Heap.live, hlive2]
  · simp [hdata]

/-- C10 on a handle that holds buffer 1, with the allocator returning 2. -/
theorem setImage_releases_previous_last_witness :
    Allocator.Sound bumpAllocator ∧
    ∃ p w1 w2 w3 w4 w5,
      nativeSetImageBytesSteps bumpAllocator
        { nat := { native_data_t.new with data := 1, api := { image := 1 } }
          heap := { blocks := [(1, [7])], log := [MemEvent.alloc 1] } } [3, -1] 2 1 8 2
        = .ok [w1, w2, w3, w4, w5] ∧
      nativeSetImageBytes bumpAllocator
        { nat := { native_data_t.new with data := 1, api := { image := 1 } }
          heap := { blocks := [(1, [7])], log := [MemEvent.alloc 1] } } [3, -1] 2 1 8 2
        = .ok w5 ∧
      p ≠ 0 ∧ p ≠ 1 ∧
      w1.heap.live = [p, 1] ∧ w1.heap.log = [MemEvent.alloc 1] ++ [MemEvent.alloc p] ∧
      w2.heap.live = [p, 1] ∧ w2.heap.blocks.head? = some (p, [3, -1].map toUChar) ∧
      w3.heap.live = [p, 1] ∧ w3.nat.api.image = p ∧ w3.nat.data = 1 ∧
      w4.heap.live = [p] ∧
      w4.heap.log = [MemEvent.alloc 1] ++ [MemEvent.alloc p, MemEvent.free 1] ∧
      w4.nat.data = 1 ∧
      w5.heap = w4.heap ∧ w5.nat.data = p ∧ w5.nat.api.image = p :=
  ⟨bumpAllocator_sound,
    setImage_releases_previous_last bumpAllocator bumpAllocator_sound
      { nat := { native_data_t.new with data := 1, api := { image := 1 } }
        heap := { blocks := [(1, [7])], log := [MemEvent.alloc 1] } }
      (by decide) (by decide) [3, -1] 2 1 8 2⟩

/-- C10 fails as stated: on a handle that holds buffer 1, `nativeSetImageBytes` has buffers 2
and 1 live together after the allocation, after the copy and when the engine is pointed at
buffer 2; buffer 1 is released only afterwards. Each entry lists the live buffers, the
engine's image pointer and `nat->data` after one statement. -/
theorem setImage_two_buffers_live :
    (nativeSetImageBytesSteps bumpAllocator
        { nat := { native_data_t.new with data := 1, api := { image := 1 } }
          heap := { blocks := [(1, [7])], log := [MemEvent.alloc 1] } } [3, -1] 2 1 8 2).map
      (fun ws => ws.map (fun w => (w.heap.live, w.nat.api.image, w.nat.data)))
    = .ok [([2, 1], 1, 1), ([2, 1], 1, 1), ([2, 1], 2, 1), ([2], 2, 1), ([2], 2, 2)] := by
  decide

end TessBaseAPI
